import Mathlib

/- Verification development for the awsdemo-ecsinsights repository.

   The repository's single source file, src/lib/application-stack.ts, is a declarative
   stack definition.  Its specification describes (a) concrete facts about the declared
   resources (environment payloads, sidecar containers, security-group connections,
   registered discovery names, scaling step tables) and (b) a minimal declarative
   orchestration engine (Topology model, Resource Builders, Endpoint Resolver, Plan
   Emitter) that reproduces the capability the stack exercises.  The engine itself has
   no implementation under src/, so its operations are modelled from the spec; the
   concrete stack data is embedded directly from application-stack.ts. -/

namespace EcsInsights

/-- Resource kinds of the topology model (spec section 2: network, cluster, cache,
services, namespaces, plus the autoscaler builder variant). -/
inductive Kind : Type
  | network
  | cluster
  | cache
  | service
  | dnsNamespace
  | autoscaler
  deriving DecidableEq, Repr

/-- Endpoint protocols named by the spec (section 3: cache, http, discovery-dns). -/
inductive Protocol : Type
  | cache
  | http
  | discoveryDns
  deriving DecidableEq, Repr

/-- Error kinds of spec section 7. -/
inductive ProvisionError : Type
  | DuplicateName
  | UnknownNode
  | CycleDetected
  | InvalidConfig
  | UnsupportedProtocol
  | BackendFailure
  deriving DecidableEq, Repr

/-- Association-list lookup used for configuration payloads and the resolver cache. -/
def assocLookup {α β : Type} [DecidableEq α] : List (α × β) → α → Option β
  | [], _ => none
  | e :: rest, k => if e.1 = k then some e.2 else assocLookup rest k

/-- Modelled from the spec: ResourceNode (section 3) — identity (kind, logical name)
and a kind-specific key/value configuration payload.  The engine carrying it is not
implemented under src/. -/
structure ResourceNode : Type where
  name : String
  kind : Kind
  config : List (String × String)
  deriving DecidableEq, Repr

/-- Modelled from the spec: Topology (section 3) — the in-memory graph of declared
resources; an edge (a, b) records that b depends on a, so a must be provisioned
before b.  Not implemented under src/. -/
structure Topology : Type where
  nodes : List ResourceNode
  edges : List (String × String)
  deriving DecidableEq, Repr

/-- The logical names bound in a topology, in insertion order. -/
def Topology.names (t : Topology) : List String := t.nodes.map (fun r => r.name)

/-- First node bound to a given logical name, if any. -/
def Topology.findNode (t : Topology) (n : String) : Option ResourceNode :=
  t.nodes.find? (fun r => r.name == n)

/-- Modelled from the spec: `addNode(name, kind, config) -> NodeRef` (section 4.1),
failing with `DuplicateName` if the name exists.  The NodeRef is the logical name. -/
def Topology.addNode (t : Topology) (name : String) (kind : Kind)
    (config : List (String × String)) : Except ProvisionError (Topology × String) :=
  if name ∈ t.names then .error .DuplicateName
  else .ok ({ nodes := t.nodes ++ [⟨name, kind, config⟩], edges := t.edges }, name)

/-- One dependency edge step: `edgeStep edges a b` holds when (a, b) is a declared
edge, i.e. b depends directly on a. -/
def edgeStep (edges : List (String × String)) (a b : String) : Prop := (a, b) ∈ edges

/-- Direct successors of a set of names under the dependency edges. -/
def succSet (edges : List (String × String)) (s : Finset String) : Finset String :=
  ((edges.filter (fun e => decide (e.1 ∈ s))).map (fun e => e.2)).toFinset

/-- One round of reachability expansion. -/
def reachStep (edges : List (String × String)) (s : Finset String) : Finset String :=
  s ∪ succSet edges s

/-- Modelled from the spec: the set of names reachable from `a` along dependency
edges, computed by saturating successor expansion (section 4.1's incremental
reachability check).  `edges.length + 1` rounds always reach the fixpoint. -/
def reachSet (edges : List (String × String)) (a : String) : Finset String :=
  (reachStep edges)^[edges.length + 1] {a}

/-- Decidable reachability along dependency edges. -/
def reaches (edges : List (String × String)) (a b : String) : Bool :=
  decide (b ∈ reachSet edges a)

/-- Modelled from the spec: `addDependency(from, to)` (section 4.1) — fails with
`UnknownNode` if either endpoint is absent, fails with `CycleDetected` if the edge
would create a cycle, checked via incremental reachability from `to` back to
`from`. -/
def Topology.addDependency (t : Topology) (src dst : String) :
    Except ProvisionError Topology :=
  if src ∈ t.names ∧ dst ∈ t.names then
    if reaches t.edges dst src then .error .CycleDetected
    else .ok { t with edges := t.edges ++ [(src, dst)] }
  else .error .UnknownNode

/-- Decidable cycle check: some declared edge (a, b) closes a cycle, i.e. b already
reaches a. -/
def Topology.hasCycleB (t : Topology) : Bool :=
  t.edges.any (fun e => reaches t.edges e.2 e.1)

/-- Topology well-formedness from spec section 3: logical names are unique and every
dependency reference resolves to an existing node. -/
def Topology.WellFormed (t : Topology) : Prop :=
  t.names.Nodup ∧ ∀ e ∈ t.edges, e.1 ∈ t.names ∧ e.2 ∈ t.names

/-- A valid topology: well-formed and cycle-free. -/
def Topology.Valid (t : Topology) : Prop := t.WellFormed ∧ t.hasCycleB = false

instance (t : Topology) : Decidable t.WellFormed := by
  unfold Topology.WellFormed; infer_instance

instance (t : Topology) : Decidable t.Valid := by
  unfold Topology.Valid; infer_instance

/-- Operation kinds of a ProvisioningOperation (spec section 3). -/
inductive OpKind : Type
  | create
  | updateDependency
  deriving DecidableEq, Repr

/-- Modelled from the spec: ProvisioningOperation (section 3) — resource logical name,
operation kind, ordering index.  Produced only by the Plan Emitter. -/
structure ProvisioningOperation : Type where
  name : String
  opKind : OpKind
  index : Nat
  deriving DecidableEq, Repr

/-- Lexicographic comparison of character lists by code point. -/
def charListLe : List Char → List Char → Bool
  | [], _ => true
  | _ :: _, [] => false
  | x :: xs, y :: ys =>
      if x.val < y.val then true
      else if y.val < x.val then false
      else charListLe xs ys

/-- Ascending (lexicographic) order on logical names. -/
def strLe (a b : String) : Bool := charListLe a.data b.data

/-- Insert a name into an already sorted list of names. -/
def orderedInsertName (a : String) : List String → List String
  | [] => [a]
  | x :: xs => if strLe a x then a :: x :: xs else x :: orderedInsertName a xs

/-- Insertion sort of logical names in ascending order. -/
def insertionSortNames : List String → List String
  | [] => []
  | x :: xs => orderedInsertName x (insertionSortNames xs)

/-- The topology's names sorted ascending; the Plan Emitter scans this order so that
ties between simultaneously ready nodes break by logical name ascending. -/
def sortedNames (t : Topology) : List String :=
  insertionSortNames t.names

/-- A node is ready when every declared dependency of it has already been emitted
(zero unresolved in-degree in Kahn's algorithm). -/
def ready (edges : List (String × String)) (emitted : List String) (n : String) : Bool :=
  (edges.filter (fun e => decide (e.2 = n))).all (fun e => decide (e.1 ∈ emitted))

/-- Modelled from the spec: the Plan Emitter loop (section 4.4, Kahn's algorithm) —
repeatedly select the first ready node of the (name-sorted) remaining list, emit it,
and recurse; fail with `CycleDetected` when nodes remain but none is ready. -/
def emitLoop (edges : List (String × String)) (emitted remaining : List String) :
    Except ProvisionError (List String) :=
  if hrem : remaining = [] then .ok []
  else
    match hfind : remaining.find? (ready edges emitted) with
    | none => .error .CycleDetected
    | some n =>
      (emitLoop edges (emitted ++ [n]) (remaining.erase n)).map (fun out => n :: out)
termination_by remaining.length
decreasing_by
  have hn : n ∈ remaining := List.mem_of_find?_eq_some hfind
  rw [List.length_erase_of_mem hn]
  exact Nat.pred_lt (Nat.pos_iff_ne_zero.mp (List.length_pos.mpr hrem))

/-- Modelled from the spec: Plan Emitter (section 4.4) — topological sort of the
dependency graph, one `create` ProvisioningOperation per node, indices in emission
order. -/
def Topology.emitPlan (t : Topology) : Except ProvisionError (List ProvisioningOperation) :=
  (emitLoop t.edges [] (sortedNames t)).map
    (fun out => out.enum.map (fun p => ⟨p.2, OpKind.create, p.1⟩))

/-- Invariant of an emission suffix: relative to the already emitted prefix, every
node of the suffix is emitted only after all of its dependencies. -/
def EmitOk (edges : List (String × String)) : List String → List String → Prop
  | _, [] => True
  | emitted, n :: rest =>
      (∀ d, (d, n) ∈ edges → d ∈ emitted) ∧ EmitOk edges (emitted ++ [n]) rest

/-- Position of the first occurrence of a name in a list (length if absent). -/
def namePos : List String → String → Nat
  | [], _ => 0
  | x :: rest, a => if x = a then 0 else namePos rest a + 1

/-- Modelled from the spec: EndpointDescriptor (section 3) — producer logical name,
protocol, resolved address. -/
structure EndpointDescriptor : Type where
  producer : String
  protocol : Protocol
  address : String
  deriving DecidableEq, Repr

/-- The single private DNS namespace name declared by the stack
(application-stack.ts line 37). -/
def namespaceName : String := "anycompany.internal"

/-- The cache connection string format used by the stack
(application-stack.ts lines 142 and 245). -/
def redisEndpointValue (addr port : String) : String :=
  "redis://" ++ addr ++ ":" ++ port ++ "/0"

/-- Which producer kinds support which endpoint protocols (spec section 4.3: a cache
resource serves cache connection strings, a service serves http and discovery-dns;
e.g. a network resource serves no endpoint protocol). -/
def supports : Kind → Protocol → Bool
  | .cache, .cache => true
  | .service, .http => true
  | .service, .discoveryDns => true
  | _, _ => false

/-- Modelled from the spec: the address template computed by the Endpoint Resolver
from the producer's declared identity (section 4.3); cache connection strings follow
the stack's redis URL format, discovery names follow the stack's
`<service>.<namespace>` format. -/
def addressFor (node : ResourceNode) (p : Protocol) : String :=
  match p with
  | .cache =>
      redisEndpointValue ((assocLookup node.config "address").getD "")
        ((assocLookup node.config "port").getD "")
  | .http => "http://" ++ node.name
  | .discoveryDns => node.name ++ "." ++ namespaceName

/-- Modelled from the spec: pure endpoint resolution (section 4.3) — fails with
`UnknownNode` if the producer is absent, `UnsupportedProtocol` if the producer's kind
does not support the requested protocol. -/
def resolveCompute (t : Topology) (producerName : String) (p : Protocol) :
    Except ProvisionError EndpointDescriptor :=
  match t.findNode producerName with
  | none => .error .UnknownNode
  | some node =>
      if supports node.kind p then .ok ⟨producerName, p, addressFor node p⟩
      else .error .UnsupportedProtocol

/-- Resolver cache: results per (producerName, protocol) pair (spec section 4.3). -/
abbrev ResolverCache : Type := List ((String × Protocol) × EndpointDescriptor)

/-- Modelled from the spec: `resolve(producerName, protocol)` with the per-build
cache (section 4.3) — a cached pair is returned as is, otherwise the descriptor is
computed and stored. -/
def resolveWithCache (t : Topology) (st : ResolverCache) (producerName : String)
    (p : Protocol) : Except ProvisionError (EndpointDescriptor × ResolverCache) :=
  match assocLookup st (producerName, p) with
  | some d => .ok (d, st)
  | none =>
      match resolveCompute t producerName p with
      | .error e => .error e
      | .ok d => .ok (d, ((producerName, p), d) :: st)

/-- A resolver cache is consistent when every stored descriptor is the one pure
resolution computes. -/
def CacheConsistent (t : Topology) (st : ResolverCache) : Prop :=
  ∀ entry ∈ st, resolveCompute t entry.1.1 entry.1.2 = .ok entry.2

/-- Modelled from the spec: a service builder's configuration (section 4.2) — the
service name, an optional cache dependency, and the rest of its environment
payload. -/
structure ServiceSpec : Type where
  name : String
  cacheDep : Option String
  baseEnvironment : List (String × String)
  deriving DecidableEq, Repr

/-- Modelled from the spec: service materialization (section 4.2) — with a cache
dependency, request an EndpointDescriptor for the cache and inject it into the
service's configuration payload under the fixed key "REDIS_ENDPOINT" before
returning, then declare the dependency edge. -/
def materializeService (t : Topology) (st : ResolverCache) (cfg : ServiceSpec) :
    Except ProvisionError (Topology × ResolverCache) :=
  match cfg.cacheDep with
  | none => (t.addNode cfg.name .service cfg.baseEnvironment).map (fun pr => (pr.1, st))
  | some cacheName =>
      (resolveWithCache t st cacheName .cache).bind (fun pr =>
        (t.addNode cfg.name .service
            (("REDIS_ENDPOINT", pr.1.address) :: cfg.baseEnvironment)).bind (fun pr2 =>
          (pr2.1.addDependency cacheName pr2.2).map (fun t3 => (t3, pr.2))))

/-- Modelled from the spec: one autoscaler step — `{lowerBound or upperBound, delta}`
(section 4.2); an absent bound leaves that side of the range open. -/
structure ScalingStep : Type where
  lower : Option Int
  upper : Option Int
  change : Int
  deriving DecidableEq, Repr

/-- Whether a metric value falls in a step's bound range. -/
def stepMatches (s : ScalingStep) (x : Int) : Bool :=
  (s.lower.all (fun l => decide (l ≤ x))) && (s.upper.all (fun u => decide (x ≤ u)))

/-- Larger of two lower bounds, `none` meaning unbounded below. -/
def optMax : Option Int → Option Int → Option Int
  | none, b => b
  | a, none => a
  | some a, some b => some (max a b)

/-- Smaller of two upper bounds, `none` meaning unbounded above. -/
def optMin : Option Int → Option Int → Option Int
  | none, b => b
  | a, none => a
  | some a, some b => some (min a b)

/-- Decidable range overlap of two scaling steps. -/
def stepsOverlap (s₁ s₂ : ScalingStep) : Bool :=
  match optMax s₁.lower s₂.lower, optMin s₁.upper s₂.upper with
  | some l, some u => decide (l ≤ u)
  | _, _ => true

/-- Whether any two distinct entries of a step table overlap. -/
def anyOverlap : List ScalingStep → Bool
  | [] => false
  | s :: rest => rest.any (stepsOverlap s) || anyOverlap rest

/-- Modelled from the spec: the autoscaler builder's overlap validation
(section 4.2) — fails with `InvalidConfig` when two step ranges overlap. -/
def validateSteps (steps : List ScalingStep) : Except ProvisionError Unit :=
  if anyOverlap steps then .error .InvalidConfig else .ok ()

/-- The cluster capacity scaling step table declared by the stack
(application-stack.ts lines 30-34). -/
def clusterScalingSteps : List ScalingStep :=
  [⟨none, some 10, -1⟩, ⟨some 50, none, 1⟩, ⟨some 70, none, 3⟩]

/-- The spec's example of an overlapping step table: x with 5 ≤ x ≤ 10 matches both
entries. -/
def exampleOverlapSteps : List ScalingStep :=
  [⟨none, some 10, -1⟩, ⟨some 5, none, 1⟩]

/-- A step table whose two entries have disjoint bound ranges. -/
def exampleDisjointSteps : List ScalingStep :=
  [⟨none, some 10, -1⟩, ⟨some 11, some 20, 1⟩]

/-- ASCII case folding of one character. -/
def lowerChar (c : Char) : Char :=
  if 'A' ≤ c ∧ c ≤ 'Z' then Char.ofNat (c.toNat + 32) else c

/-- The case-folded key of a DNS-style name, used for case-insensitive
comparison. -/
def lowerKey (s : String) : List Char := s.data.map lowerChar

/-- Modelled from the spec: the namespace builder's registration (section 4.2) —
registers one DNS-style name, failing with `DuplicateName` on a case-insensitive
clash. -/
def registerServiceName (registered : List String) (n : String) :
    Except ProvisionError (List String) :=
  if registered.any (fun m => lowerKey m == lowerKey n) then .error .DuplicateName
  else .ok (n :: registered)

/-- Apply a sequence of registrations; a failed registration leaves the namespace
unchanged. -/
def applyRegistrations (registered : List String) (ops : List String) : List String :=
  ops.foldl
    (fun st n =>
      match registerServiceName st n with
      | .ok st2 => st2
      | .error _ => st)
    registered

/-- No two registered names are equal under case-insensitive comparison. -/
def CaselessUnique (l : List String) : Prop :=
  l.Pairwise (fun a b => lowerKey a ≠ lowerKey b)

instance (l : List String) : Decidable (CaselessUnique l) := by
  unfold CaselessUnique; infer_instance

/-- The DNS names the stack registers in the namespace, in source order
(application-stack.ts lines 97, 127, 162, 196, 229). -/
def stackDnsNames : List String := ["image", "catalog", "cart", "order", "recommender"]

/-- Network protocols of a port mapping. -/
inductive NetProtocol : Type
  | tcp
  | udp
  deriving DecidableEq, Repr

/-- A container port mapping. -/
structure PortMapping : Type where
  containerPort : Nat
  protocol : NetProtocol
  deriving DecidableEq, Repr

/-- An extra container added to a task definition. -/
structure ContainerDef : Type where
  name : String
  image : String
  portMappings : List PortMapping
  deriving DecidableEq, Repr

/-- One ApplicationLoadBalancedFargateService of the stack, with the fields the
source sets on it. -/
structure FargateServiceDef : Type where
  constructId : String
  serviceName : String
  memoryLimitMiB : Nat
  cpu : Nat
  containerPort : Nat
  environment : List (String × String)
  desiredCount : Nat
  assignPublicIp : Option Bool
  platformVersion : String
  sidecars : List ContainerDef
  taskRoleManagedPolicies : List String
  healthCheckPath : String
  connectsToCache : Bool
  cloudMapName : Option String
  deriving DecidableEq, Repr

/-- The observability sidecar every load-balanced service receives
(application-stack.ts lines 86-92 and the five analogous blocks). -/
def xrayDaemonContainer : ContainerDef :=
  { name := "xray-daemon", image := "amazon/aws-xray-daemon",
    portMappings := [{ containerPort := 2000, protocol := NetProtocol.udp }] }

/-- Environment payload of the cart service (application-stack.ts lines 141-144),
parametrized by the cache cluster's endpoint address and port attributes. -/
def cartServiceEnvironment (addr port : String) : List (String × String) :=
  [("REDIS_ENDPOINT", redisEndpointValue addr port),
   ("CATALOG_ENDPOINT", "catalog." ++ namespaceName)]

/-- Environment payload of the order service (application-stack.ts lines 176-179). -/
def orderServiceEnvironment : List (String × String) :=
  [("CART_ENDPOINT", "cart." ++ namespaceName),
   ("CATALOG_ENDPOINT", "catalog." ++ namespaceName)]

/-- Environment payload of the recommender service
(application-stack.ts lines 210-212). -/
def recommenderServiceEnvironment : List (String × String) :=
  [("CATALOG_ENDPOINT", "catalog." ++ namespaceName)]

/-- Environment payload of the frontend service
(application-stack.ts lines 244-251). -/
def frontendServiceEnvironment (addr port : String) : List (String × String) :=
  [("REDIS_ENDPOINT", redisEndpointValue addr port),
   ("IMAGE_ENDPOINT", "image." ++ namespaceName),
   ("CATALOG_ENDPOINT", "catalog." ++ namespaceName),
   ("CART_ENDPOINT", "cart." ++ namespaceName),
   ("ORDER_ENDPOINT", "order." ++ namespaceName),
   ("RECOMMENDER_ENDPOINT", "recommender." ++ namespaceName)]

/-- The image service (application-stack.ts lines 67-97). -/
def imageServiceDef : FargateServiceDef :=
  { constructId := "ImageService", serviceName := "imageservice",
    memoryLimitMiB := 1024, cpu := 512, containerPort := 9000, environment := [],
    desiredCount := 1, assignPublicIp := some false, platformVersion := "1.4",
    sidecars := [xrayDaemonContainer],
    taskRoleManagedPolicies := ["AWSXRayDaemonWriteAccess"],
    healthCheckPath := "/healthz", connectsToCache := false,
    cloudMapName := some "image" }

/-- The catalog service (application-stack.ts lines 103-127). -/
def catalogServiceDef : FargateServiceDef :=
  { constructId := "CatalogService", serviceName := "catalogservice",
    memoryLimitMiB := 1024, cpu := 512, containerPort := 8080, environment := [],
    desiredCount := 1, assignPublicIp := some false, platformVersion := "1.4",
    sidecars := [xrayDaemonContainer],
    taskRoleManagedPolicies := ["AWSXRayDaemonWriteAccess"],
    healthCheckPath := "/api/v1/healthz", connectsToCache := false,
    cloudMapName := some "catalog" }

/-- The cart service (application-stack.ts lines 133-162). -/
def cartServiceDef (addr port : String) : FargateServiceDef :=
  { constructId := "CartService", serviceName := "cartservice",
    memoryLimitMiB := 1024, cpu := 512, containerPort := 8080,
    environment := cartServiceEnvironment addr port,
    desiredCount := 1, assignPublicIp := some false, platformVersion := "1.4",
    sidecars := [xrayDaemonContainer],
    taskRoleManagedPolicies := ["AWSXRayDaemonWriteAccess"],
    healthCheckPath := "/api/v1/healthz", connectsToCache := true,
    cloudMapName := some "cart" }

/-- The order service (application-stack.ts lines 168-196). -/
def orderServiceDef : FargateServiceDef :=
  { constructId := "OrderService", serviceName := "orderservice",
    memoryLimitMiB := 1024, cpu := 512, containerPort := 8080,
    environment := orderServiceEnvironment,
    desiredCount := 1, assignPublicIp := some false, platformVersion := "1.4",
    sidecars := [xrayDaemonContainer],
    taskRoleManagedPolicies := ["AWSXRayDaemonWriteAccess"],
    healthCheckPath := "/api/v1/healthz", connectsToCache := false,
    cloudMapName := some "order" }

/-- The recommender service (application-stack.ts lines 202-229). -/
def recommenderServiceDef : FargateServiceDef :=
  { constructId := "RecommenderService", serviceName := "recommenderservice",
    memoryLimitMiB := 1024, cpu := 512, containerPort := 8080,
    environment := recommenderServiceEnvironment,
    desiredCount := 1, assignPublicIp := some false, platformVersion := "1.4",
    sidecars := [xrayDaemonContainer],
    taskRoleManagedPolicies := ["AWSXRayDaemonWriteAccess"],
    healthCheckPath := "/api/v1/healthz", connectsToCache := false,
    cloudMapName := some "recommender" }

/-- The frontend service (application-stack.ts lines 236-267); it sets no
assignPublicIp and registers no discovery name. -/
def frontendServiceDef (addr port : String) : FargateServiceDef :=
  { constructId := "FrontendService", serviceName := "frontendservice",
    memoryLimitMiB := 1024, cpu := 512, containerPort := 8080,
    environment := frontendServiceEnvironment addr port,
    desiredCount := 1, assignPublicIp := none, platformVersion := "1.4",
    sidecars := [xrayDaemonContainer],
    taskRoleManagedPolicies := ["AWSXRayDaemonWriteAccess"],
    healthCheckPath := "/healthz", connectsToCache := true,
    cloudMapName := none }

/-- The six ApplicationLoadBalancedFargateService instances of the stack, in source
order, parametrized by the cache cluster's endpoint attributes. -/
def stackServices (addr port : String) : List FargateServiceDef :=
  [imageServiceDef, catalogServiceDef, cartServiceDef addr port, orderServiceDef,
   recommenderServiceDef, frontendServiceDef addr port]

/-- The default port of the cache connection (application-stack.ts line 46). -/
def cacheConnectionDefaultPort : NetProtocol × Nat := (NetProtocol.tcp, 6379)

/-- The stack's one Ec2Service with its EC2 task definition, with the fields the
source sets on it (application-stack.ts lines 272-290). -/
structure Ec2ServiceDef : Type where
  constructId : String
  serviceName : String
  taskMemoryMiB : String
  taskCpu : String
  containerName : String
  containerEnvironment : List (String × String)
  memoryReservationMiB : Nat
  containerCpu : Nat
  desiredCount : Nat
  connectsToCache : Bool
  deriving DecidableEq, Repr

/-- The load generator service (application-stack.ts lines 269-290), parametrized
by the frontend load balancer's DNS name; the source never connects it to the
cache connection. -/
def loadGeneratorServiceDef (frontendDns : String) : Ec2ServiceDef :=
  { constructId := "LoadGenerator", serviceName := "loadgenerator",
    taskMemoryMiB := "1024", taskCpu := "512",
    containerName := "generator",
    containerEnvironment := [("FRONTEND_ADDR", frontendDns)],
    memoryReservationMiB := 1024, containerCpu := 512,
    desiredCount := 1, connectsToCache := false }

/-- The common view of a stack service needed to relate cache access and
environment payload: service name, environment, and whether the service is
connected to the cache connection. -/
structure StackService : Type where
  name : String
  environment : List (String × String)
  connectsToCache : Bool
  deriving DecidableEq, Repr

/-- View of a load-balanced Fargate service as a StackService. -/
def FargateServiceDef.toStackService (s : FargateServiceDef) : StackService :=
  ⟨s.serviceName, s.environment, s.connectsToCache⟩

/-- View of an Ec2Service as a StackService. -/
def Ec2ServiceDef.toStackService (s : Ec2ServiceDef) : StackService :=
  ⟨s.serviceName, s.containerEnvironment, s.connectsToCache⟩

/-- Every container service the stack declares — the six load-balanced Fargate
services followed by the load generator Ec2Service — in source order. -/
def allStackServices (addr port frontendDns : String) : List StackService :=
  (stackServices addr port).map FargateServiceDef.toStackService ++
    [(loadGeneratorServiceDef frontendDns).toStackService]

/-- The spec's three-resource example: A (network), B (cache, depends on A),
C (service, depends on A and B). -/
def exampleTopologyABC : Topology :=
  { nodes :=
      [⟨"A", Kind.network, []⟩,
       ⟨"B", Kind.cache, [("address", "cache.host"), ("port", "6379")]⟩,
       ⟨"C", Kind.service, []⟩],
    edges := [("A", "B"), ("A", "C"), ("B", "C")] }

/-- A two-node topology with a single edge, used to exercise cycle rejection. -/
def exampleTopologyEdge : Topology :=
  { nodes := [⟨"A", Kind.network, []⟩, ⟨"B", Kind.service, []⟩],
    edges := [("A", "B")] }

/-- A two-node topology that already contains a cycle. -/
def exampleTopologyCycle : Topology :=
  { nodes := [⟨"A", Kind.network, []⟩, ⟨"B", Kind.service, []⟩],
    edges := [("A", "B"), ("B", "A")] }

/-- A one-node topology holding a cache resource. -/
def exampleCacheTopology : Topology :=
  { nodes := [⟨"redis", Kind.cache, [("address", "redis.internal"), ("port", "6379")]⟩],
    edges := [] }

/-- A cart-like service configuration with a cache dependency. -/
def exampleCartSpec : ServiceSpec :=
  { name := "cartservice", cacheDep := some "redis",
    baseEnvironment := [("CATALOG_ENDPOINT", "catalog." ++ namespaceName)] }

/-- The descriptor the resolver computes for the example cache node. -/
def exampleRedisDescriptor : EndpointDescriptor :=
  ⟨"redis", Protocol.cache, "redis://redis.internal:6379/0"⟩

/-- The resolver cache after one cache-endpoint resolution on the example
topology. -/
def exampleResolverCache : ResolverCache :=
  [(("redis", Protocol.cache), exampleRedisDescriptor)]

/-- The topology after materializing the cart-like service next to the example
cache node. -/
def exampleMaterializedTopology : Topology :=
  { nodes :=
      [⟨"redis", Kind.cache, [("address", "redis.internal"), ("port", "6379")]⟩,
       ⟨"cartservice", Kind.service,
         [("REDIS_ENDPOINT", "redis://redis.internal:6379/0"),
          ("CATALOG_ENDPOINT", "catalog.anycompany.internal")]⟩],
    edges := [("redis", "cartservice")] }

lemma mem_succSet_iff {edges : List (String × String)} {s : Finset String} {b : String} :
    b ∈ succSet edges s ↔ ∃ a ∈ s, (a, b) ∈ edges := by
  simp only [succSet, List.mem_toFinset, List.mem_map, List.mem_filter,
    decide_eq_true_eq]
  constructor
  · rintro ⟨e, ⟨hmem, hs⟩, rfl⟩
    exact ⟨e.1, hs, hmem⟩
  · rintro ⟨a, hs, hmem⟩
    exact ⟨(a, b), ⟨hmem, hs⟩, rfl⟩

lemma subset_reachStep (edges : List (String × String)) (s : Finset String) :
    s ⊆ reachStep edges s :=
  Finset.subset_union_left

lemma reach_iter_sound (edges : List (String × String)) (a : String) :
    ∀ (k : Nat) (x : String), x ∈ (reachStep edges)^[k] {a} →
      Relation.ReflTransGen (edgeStep edges) a x := by
  intro k
  induction k with
  | zero =>
    intro x hx
    simp only [Function.iterate_zero, id, Finset.mem_singleton] at hx
    subst hx
    exact Relation.ReflTransGen.refl
  | succ k ih =>
    intro x hx
    rw [Function.iterate_succ_apply'] at hx
    rw [reachStep, Finset.mem_union] at hx
    rcases hx with h | h
    · exact ih x h
    · rcases mem_succSet_iff.mp h with ⟨y, hy, hedge⟩
      exact Relation.ReflTransGen.tail (ih y hy) hedge

lemma reach_iter_subset (edges : List (String × String)) (a : String) :
    ∀ k : Nat, (reachStep edges)^[k] {a} ⊆
      insert a (edges.map (fun e => e.2)).toFinset := by
  intro k
  induction k with
  | zero =>
    simp only [Function.iterate_zero, id]
    intro x hx
    rw [Finset.mem_singleton] at hx
    subst hx
    exact Finset.mem_insert_self _ _
  | succ k ih =>
    rw [Function.iterate_succ_apply']
    rw [reachStep]
    apply Finset.union_subset ih
    intro x hx
    rcases mem_succSet_iff.mp hx with ⟨y, _, hedge⟩
    apply Finset.mem_insert_of_mem
    rw [List.mem_toFinset, List.mem_map]
    exact ⟨(y, x), hedge, rfl⟩

lemma reach_iter_card (edges : List (String × String)) (a : String) :
    ∀ k : Nat,
      (∀ j < k, (reachStep edges)^[j + 1] {a} ≠ (reachStep edges)^[j] {a}) →
      k + 1 ≤ ((reachStep edges)^[k] {a}).card := by
  intro k
  induction k with
  | zero => intro _; simp
  | succ k ih =>
    intro h
    have ihk := ih (fun j hj => h j (Nat.lt_succ_of_lt hj))
    have hsub : (reachStep edges)^[k] {a} ⊆ (reachStep edges)^[k + 1] {a} := by
      rw [Function.iterate_succ_apply']
      exact subset_reachStep edges _
    have hne := h k (Nat.lt_succ_self k)
    have hss : (reachStep edges)^[k] {a} ⊂ (reachStep edges)^[k + 1] {a} :=
      HasSubset.Subset.ssubset_of_ne hsub (Ne.symm hne)
    have := Finset.card_lt_card hss
    omega

lemma reachSet_fixed (edges : List (String × String)) (a : String) :
    reachStep edges (reachSet edges a) = reachSet edges a := by
  by_cases hfix : ∃ j < edges.length + 1,
      (reachStep edges)^[j + 1] {a} = (reachStep edges)^[j] {a}
  · obtain ⟨j, hj, hfixj⟩ := hfix
    have hstepfix : reachStep edges ((reachStep edges)^[j] {a}) =
        (reachStep edges)^[j] {a} := by
      have h2 := hfixj
      rw [Function.iterate_succ_apply'] at h2
      exact h2
    have hprop : ∀ i : Nat,
        (reachStep edges)^[j + i] {a} = (reachStep edges)^[j] {a} := by
      intro i
      induction i with
      | zero => rfl
      | succ i ihp =>
        have : j + (i + 1) = (j + i) + 1 := by omega
        rw [this, Function.iterate_succ_apply', ihp, hstepfix]
    have hN : edges.length + 1 = j + (edges.length + 1 - j) := by omega
    rw [reachSet, hN, hprop]
    exact hstepfix
  · exfalso
    push_neg at hfix
    have hcard := reach_iter_card edges a (edges.length + 1)
      (fun j hj => hfix j hj)
    have hsub := reach_iter_subset edges a (edges.length + 1)
    have hle := Finset.card_le_card hsub
    have hbound : (insert a (edges.map (fun e => e.2)).toFinset).card ≤
        edges.length + 1 := by
      calc (insert a (edges.map (fun e => e.2)).toFinset).card
          ≤ (edges.map (fun e => e.2)).toFinset.card + 1 := Finset.card_insert_le _ _
        _ ≤ (edges.map (fun e => e.2)).length + 1 :=
            Nat.add_le_add_right (edges.map (fun e => e.2)).toFinset_card_le 1
        _ = edges.length + 1 := by rw [List.length_map]
    omega

lemma mem_reachSet_self (edges : List (String × String)) (a : String) :
    a ∈ reachSet edges a := by
  rw [reachSet]
  have : ∀ k : Nat, a ∈ (reachStep edges)^[k] {a} := by
    intro k
    induction k with
    | zero => simp
    | succ k ih =>
      rw [Function.iterate_succ_apply']
      exact subset_reachStep edges _ ih
  exact this _

lemma reach_complete {edges : List (String × String)} {a x : String}
    (h : Relation.ReflTransGen (edgeStep edges) a x) : x ∈ reachSet edges a := by
  induction h with
  | refl => exact mem_reachSet_self edges a
  | tail hxy hedge ih =>
    have hmem : _ ∈ reachStep edges (reachSet edges a) :=
      Finset.mem_union_right _ (mem_succSet_iff.mpr ⟨_, ih, hedge⟩)
    rwa [reachSet_fixed] at hmem

lemma reaches_iff {edges : List (String × String)} {a b : String} :
    reaches edges a b = true ↔ Relation.ReflTransGen (edgeStep edges) a b := by
  rw [reaches, decide_eq_true_eq]
  exact ⟨fun h => reach_iter_sound edges a _ b h, reach_complete⟩

lemma hasCycleB_iff (t : Topology) :
    t.hasCycleB = true ↔ ∃ n, Relation.TransGen (edgeStep t.edges) n n := by
  rw [Topology.hasCycleB, List.any_eq_true]
  constructor
  · rintro ⟨e, he, hr⟩
    exact ⟨e.2, Relation.TransGen.tail' (reaches_iff.mp hr) he⟩
  · rintro ⟨n, hn⟩
    obtain ⟨m, hnm, hmn⟩ := Relation.TransGen.head'_iff.mp hn
    exact ⟨(n, m), hnm, reaches_iff.mpr hmn⟩

lemma acyclic_of_valid {t : Topology} (h : t.Valid) :
    ∀ n, ¬ Relation.TransGen (edgeStep t.edges) n n := by
  intro n hn
  have := (hasCycleB_iff t).mpr ⟨n, hn⟩
  rw [h.2] at this
  exact Bool.false_ne_true this

lemma edgeStep_append_iff {edges : List (String × String)} {s d x y : String} :
    edgeStep (edges ++ [(s, d)]) x y ↔ edgeStep edges x y ∨ (x = s ∧ y = d) := by
  rw [edgeStep, List.mem_append, List.mem_singleton, Prod.mk.injEq]
  exact Iff.rfl

lemma rtg_extend {edges : List (String × String)} {s d x y : String}
    (h : Relation.ReflTransGen (edgeStep (edges ++ [(s, d)])) x y) :
    Relation.ReflTransGen (edgeStep edges) x y ∨
      (Relation.ReflTransGen (edgeStep edges) x s ∧
        Relation.ReflTransGen (edgeStep edges) d y) := by
  induction h with
  | refl => exact Or.inl Relation.ReflTransGen.refl
  | @tail b c hxb hstep ih =>
    rcases edgeStep_append_iff.mp hstep with hs | ⟨rfl, rfl⟩
    · rcases ih with ih | ⟨ih1, ih2⟩
      · exact Or.inl (ih.tail hs)
      · exact Or.inr ⟨ih1, ih2.tail hs⟩
    · rcases ih with ih | ⟨ih1, _⟩
      · exact Or.inr ⟨ih, Relation.ReflTransGen.refl⟩
      · exact Or.inr ⟨ih1, Relation.ReflTransGen.refl⟩

lemma cycle_extend {edges : List (String × String)} {s d : String}
    (hacy : ∀ n, ¬ Relation.TransGen (edgeStep edges) n n) {n : String}
    (hcyc : Relation.TransGen (edgeStep (edges ++ [(s, d)])) n n) :
    Relation.ReflTransGen (edgeStep edges) d s := by
  obtain ⟨m, hnm, hmn⟩ := Relation.TransGen.head'_iff.mp hcyc
  rcases edgeStep_append_iff.mp hnm with hs | ⟨rfl, rfl⟩
  · rcases rtg_extend hmn with h | ⟨h1, h2⟩
    · exact absurd (Relation.TransGen.head' hs h) (hacy n)
    · exact (h2.tail hs).trans h1
  · rcases rtg_extend hmn with h | ⟨h1, _⟩
    · exact h
    · exact h1

lemma exists_min_of_acyclic (R : String → String → Prop)
    (hacy : ∀ n, ¬ Relation.TransGen R n n) :
    ∀ l : List String, l ≠ [] → ∃ n ∈ l, ∀ m ∈ l, ¬ Relation.TransGen R m n := by
  intro l
  induction l with
  | nil => intro h; exact absurd rfl h
  | cons a l ih =>
    intro _
    by_cases hl : l = []
    · subst hl
      refine ⟨a, List.mem_singleton_self a, ?_⟩
      intro m hm
      rw [List.mem_singleton] at hm
      subst hm
      exact hacy m
    · obtain ⟨n, hn, hmin⟩ := ih hl
      by_cases han : Relation.TransGen R a n
      · refine ⟨a, List.mem_cons_self a l, ?_⟩
        intro m hm hma
        rcases List.mem_cons.mp hm with rfl | hm2
        · exact hacy m hma
        · exact hmin m hm2 (hma.trans han)
      · refine ⟨n, List.mem_cons_of_mem a hn, ?_⟩
        intro m hm hmn
        rcases List.mem_cons.mp hm with rfl | hm2
        · exact han hmn
        · exact hmin m hm2 hmn

lemma orderedInsertName_perm (a : String) (l : List String) :
    (orderedInsertName a l).Perm (a :: l) := by
  induction l with
  | nil => simp [orderedInsertName]
  | cons x xs ih =>
    rw [orderedInsertName]
    by_cases h : strLe a x
    · rw [if_pos h]
    · rw [if_neg h]
      exact (ih.cons x).trans (List.Perm.swap a x xs)

lemma insertionSortNames_perm (l : List String) : (insertionSortNames l).Perm l := by
  induction l with
  | nil => simp [insertionSortNames]
  | cons x xs ih =>
    rw [insertionSortNames]
    exact (orderedInsertName_perm x (insertionSortNames xs)).trans (ih.cons x)

lemma emitLoop_nil (edges : List (String × String)) (emitted : List String) :
    emitLoop edges emitted [] = .ok [] := by
  rw [emitLoop]; rfl

lemma emitLoop_cons_some {edges : List (String × String)}
    {emitted remaining : List String} (hrem : remaining ≠ []) {n : String}
    (hm : remaining.find? (ready edges emitted) = some n) :
    emitLoop edges emitted remaining =
      (emitLoop edges (emitted ++ [n]) (remaining.erase n)).map (fun o => n :: o) := by
  rw [emitLoop, dif_neg hrem]
  split
  · next heq => rw [hm] at heq; exact absurd heq (by simp)
  · next n2 heq => rw [hm] at heq; injection heq with h; subst h; rfl

lemma emitLoop_cons_none {edges : List (String × String)}
    {emitted remaining : List String} (hrem : remaining ≠ [])
    (hm : remaining.find? (ready edges emitted) = none) :
    emitLoop edges emitted remaining = .error .CycleDetected := by
  rw [emitLoop, dif_neg hrem]
  split
  · rfl
  · next n2 heq => rw [hm] at heq; exact absurd heq (by simp)

lemma ready_iff {edges : List (String × String)} {emitted : List String}
    {n : String} :
    ready edges emitted n = true ↔ ∀ d, (d, n) ∈ edges → d ∈ emitted := by
  rw [ready, List.all_eq_true]
  constructor
  · intro h d hd
    have := h (d, n) (List.mem_filter.mpr ⟨hd, by simp⟩)
    simpa using this
  · intro h e he
    rw [List.mem_filter] at he
    obtain ⟨hmem, hsnd⟩ := he
    rw [decide_eq_true_eq] at hsnd
    rw [decide_eq_true_eq]
    apply h e.1
    have he2 : (e.1, n) = e := by rw [← hsnd]
    rwa [he2]

lemma namePos_cons_self (a : String) (l : List String) : namePos (a :: l) a = 0 := by
  simp [namePos]

lemma namePos_cons_ne {x a : String} (h : x ≠ a) (l : List String) :
    namePos (x :: l) a = namePos l a + 1 := by
  simp [namePos, h]

lemma namePos_lt_length {l : List String} {a : String} (h : a ∈ l) :
    namePos l a < l.length := by
  induction l with
  | nil => simp at h
  | cons x l ih =>
    by_cases hxa : x = a
    · subst hxa; simp [namePos]
    · have hmem : a ∈ l := by
        rcases List.mem_cons.mp h with h2 | h2
        · exact absurd h2.symm hxa
        · exact h2
      have := ih hmem
      rw [namePos_cons_ne hxa, List.length_cons]
      omega

lemma namePos_get? {l : List String} {a : String} (h : a ∈ l) :
    l.get? (namePos l a) = some a := by
  induction l with
  | nil => simp at h
  | cons x l ih =>
    by_cases hxa : x = a
    · subst hxa; simp [namePos]
    · have hmem : a ∈ l := by
        rcases List.mem_cons.mp h with h2 | h2
        · exact absurd h2.symm hxa
        · exact h2
      rw [namePos_cons_ne hxa, List.get?_cons_succ]
      exact ih hmem

lemma emitOk_order :
    ∀ (out emitted : List String) (edges : List (String × String)) (a b : String),
      EmitOk edges emitted out → out.Nodup → (a, b) ∈ edges → b ∈ out →
      a ∈ emitted ∨ (a ∈ out ∧ namePos out a < namePos out b) := by
  intro out
  induction out with
  | nil => intro emitted edges a b _ _ _ hb; simp at hb
  | cons n rest ih =>
    intro emitted edges a b hok hnd hab hb
    obtain ⟨hdeps, hok2⟩ := hok
    obtain ⟨hnrest, hnd2⟩ := List.nodup_cons.mp hnd
    rcases List.mem_cons.mp hb with rfl | hbrest
    · exact Or.inl (hdeps a hab)
    · have hbn : b ≠ n := fun hEq => hnrest (hEq ▸ hbrest)
      rcases ih (emitted ++ [n]) edges a b hok2 hnd2 hab hbrest with hmem | ⟨harest, hpos⟩
      · rcases List.mem_append.mp hmem with h | h
        · exact Or.inl h
        · rw [List.mem_singleton] at h
          subst h
          refine Or.inr ⟨List.mem_cons_self _ _, ?_⟩
          rw [namePos_cons_self, namePos_cons_ne (Ne.symm hbn)]
          omega
      · have han : a ≠ n := fun hEq => hnrest (hEq ▸ harest)
        refine Or.inr ⟨List.mem_cons_of_mem _ harest, ?_⟩
        rw [namePos_cons_ne (Ne.symm han), namePos_cons_ne (Ne.symm hbn)]
        omega

lemma emitOk_order_trans {out : List String} {edges : List (String × String)}
    (hok : EmitOk edges [] out) (hnd : out.Nodup)
    (hcl : ∀ e ∈ edges, e.2 ∈ out) :
    ∀ a b : String, Relation.TransGen (edgeStep edges) a b →
      a ∈ out ∧ b ∈ out ∧ namePos out a < namePos out b := by
  intro a b h
  induction h with
  | @single c hac =>
    have hc : c ∈ out := hcl (a, c) hac
    rcases emitOk_order out [] edges a c hok hnd hac hc with h2 | ⟨ha, hpos⟩
    · simp at h2
    · exact ⟨ha, hc, hpos⟩
  | @tail b2 c _ hbc ih =>
    have hc : c ∈ out := hcl (b2, c) hbc
    rcases emitOk_order out [] edges b2 c hok hnd hbc hc with h2 | ⟨_, hpos⟩
    · simp at h2
    · exact ⟨ih.1, hc, Nat.lt_trans ih.2.2 hpos⟩

lemma emitLoop_ok_spec :
    ∀ (N : Nat) (edges : List (String × String)) (emitted remaining out : List String),
      remaining.length ≤ N → emitLoop edges emitted remaining = .ok out →
      remaining.Perm out ∧ EmitOk edges emitted out := by
  intro N
  induction N with
  | zero =>
    intro edges emitted remaining out hlen hok
    have hrem : remaining = [] := List.length_eq_zero.mp (Nat.le_zero.mp hlen)
    subst hrem
    rw [emitLoop_nil] at hok
    injection hok with h
    subst h
    exact ⟨List.Perm.refl _, trivial⟩
  | succ N ih =>
    intro edges emitted remaining out hlen hok
    by_cases hrem : remaining = []
    · subst hrem
      rw [emitLoop_nil] at hok
      injection hok with h
      subst h
      exact ⟨List.Perm.refl _, trivial⟩
    · cases hfind : remaining.find? (ready edges emitted) with
      | none =>
        rw [emitLoop_cons_none hrem hfind] at hok
        exact absurd hok (by simp)
      | some n =>
        rw [emitLoop_cons_some hrem hfind] at hok
        cases hrec : emitLoop edges (emitted ++ [n]) (remaining.erase n) with
        | error e => rw [hrec] at hok; exact absurd hok (by simp [Except.map])
        | ok out2 =>
          rw [hrec] at hok
          simp only [Except.map] at hok
          injection hok with h
          subst h
          have hn : n ∈ remaining := List.mem_of_find?_eq_some hfind
          have hlen2 : (remaining.erase n).length ≤ N := by
            rw [List.length_erase_of_mem hn]
            have := List.length_pos.mpr hrem
            omega
          obtain ⟨hperm, hemit⟩ := ih edges (emitted ++ [n]) (remaining.erase n) out2 hlen2 hrec
          refine ⟨(List.perm_cons_erase hn).trans (hperm.cons n), ?_, hemit⟩
          exact fun d hd => ready_iff.mp (List.find?_some hfind) d hd

lemma emitLoop_ok_exists :
    ∀ (N : Nat) (names : List String) (edges : List (String × String))
      (emitted remaining : List String),
      remaining.length ≤ N →
      (∀ x ∈ remaining, x ∈ names) →
      (∀ x ∈ names, x ∈ emitted ∨ x ∈ remaining) →
      (∀ e ∈ edges, e.1 ∈ names) →
      (∀ n, ¬ Relation.TransGen (edgeStep edges) n n) →
      ∃ out, emitLoop edges emitted remaining = .ok out := by
  intro N
  induction N with
  | zero =>
    intro names edges emitted remaining hlen _ _ _ _
    have hrem : remaining = [] := List.length_eq_zero.mp (Nat.le_zero.mp hlen)
    subst hrem
    exact ⟨[], emitLoop_nil _ _⟩
  | succ N ih =>
    intro names edges emitted remaining hlen hsub hcov hedge hacy
    by_cases hrem : remaining = []
    · subst hrem
      exact ⟨[], emitLoop_nil _ _⟩
    · obtain ⟨n, hn, hmin⟩ := exists_min_of_acyclic (edgeStep edges) hacy remaining hrem
      have hready : ready edges emitted n = true := by
        rw [ready_iff]
        intro d hd
        rcases hcov d (hedge (d, n) hd) with h | h
        · exact h
        · exact absurd (Relation.TransGen.single hd) (hmin d h)
      cases hfind : remaining.find? (ready edges emitted) with
      | none =>
        exact absurd hready (List.find?_eq_none.mp hfind n hn)
      | some m =>
        have hmmem : m ∈ remaining := List.mem_of_find?_eq_some hfind
        have hlen2 : (remaining.erase m).length ≤ N := by
          rw [List.length_erase_of_mem hmmem]
          have := List.length_pos.mpr hrem
          omega
        have hsub2 : ∀ x ∈ remaining.erase m, x ∈ names :=
          fun x hx => hsub x (List.mem_of_mem_erase hx)
        have hcov2 : ∀ x ∈ names, x ∈ emitted ++ [m] ∨ x ∈ remaining.erase m := by
          intro x hx
          rcases hcov x hx with h | h
          · exact Or.inl (List.mem_append_left _ h)
          · by_cases hxm : x = m
            · subst hxm
              exact Or.inl (List.mem_append_right _ (List.mem_singleton_self x))
            · exact Or.inr ((List.mem_erase_of_ne hxm).mpr h)
        obtain ⟨out, hout⟩ :=
          ih names edges (emitted ++ [m]) (remaining.erase m) hlen2 hsub2 hcov2 hedge hacy
        exact ⟨m :: out, by rw [emitLoop_cons_some hrem hfind, hout]; rfl⟩

lemma emitLoop_error_eq :
    ∀ (N : Nat) (edges : List (String × String)) (emitted remaining : List String)
      (err : ProvisionError),
      remaining.length ≤ N → emitLoop edges emitted remaining = .error err →
      err = .CycleDetected := by
  intro N
  induction N with
  | zero =>
    intro edges emitted remaining err hlen hok
    have hrem : remaining = [] := List.length_eq_zero.mp (Nat.le_zero.mp hlen)
    subst hrem
    rw [emitLoop_nil] at hok
    exact absurd hok (by simp)
  | succ N ih =>
    intro edges emitted remaining err hlen hok
    by_cases hrem : remaining = []
    · subst hrem
      rw [emitLoop_nil] at hok
      exact absurd hok (by simp)
    · cases hfind : remaining.find? (ready edges emitted) with
      | none =>
        rw [emitLoop_cons_none hrem hfind] at hok
        injection hok with h
        exact h.symm
      | some n =>
        rw [emitLoop_cons_some hrem hfind] at hok
        cases hrec : emitLoop edges (emitted ++ [n]) (remaining.erase n) with
        | ok out2 => rw [hrec] at hok; exact absurd hok (by simp [Except.map])
        | error e =>
          rw [hrec] at hok
          simp only [Except.map] at hok
          injection hok with h
          subst h
          have hn : n ∈ remaining := List.mem_of_find?_eq_some hfind
          have hlen2 : (remaining.erase n).length ≤ N := by
            rw [List.length_erase_of_mem hn]
            have := List.length_pos.mpr hrem
            omega
          exact ih edges (emitted ++ [n]) (remaining.erase n) e hlen2 hrec

lemma emitLoop_no_edges :
    ∀ (N : Nat) (emitted remaining : List String), remaining.length ≤ N →
      emitLoop [] emitted remaining = .ok remaining := by
  intro N
  induction N with
  | zero =>
    intro emitted remaining hlen
    have hrem : remaining = [] := List.length_eq_zero.mp (Nat.le_zero.mp hlen)
    subst hrem
    exact emitLoop_nil _ _
  | succ N ih =>
    intro emitted remaining hlen
    cases remaining with
    | nil => exact emitLoop_nil _ _
    | cons x rest =>
      have hready : ready [] emitted x = true := by
        rw [ready_iff]; intro d hd; simp at hd
      have hfind : (x :: rest).find? (ready [] emitted) = some x :=
        List.find?_cons_of_pos _ hready
      rw [emitLoop_cons_some (by simp) hfind, List.erase_cons_head,
        ih (emitted ++ [x]) rest (by rw [List.length_cons] at hlen; omega)]
      rfl

/-- C1: for every valid (cycle-free, fully resolved) topology, the Plan Emitter
succeeds; the emitted operations carry consecutive indices in emission order and are
all `create` operations; for every dependency edge (from, to) the operation for
`from` has a strictly smaller operation index than the operation for `to`; and for a
topology whose nodes are related by no dependency at all, the emission order is the
logical names ascending (the tie-break). -/
theorem emitPlan_orders_dependencies (t : Topology) (hv : t.Valid) :
    ∃ ops : List ProvisioningOperation, t.emitPlan = .ok ops ∧
      (∀ (k : Nat) (hk : k < ops.length),
        (ops.get ⟨k, hk⟩).index = k ∧ (ops.get ⟨k, hk⟩).opKind = OpKind.create) ∧
      (∀ e ∈ t.edges, ∃ opF opT : ProvisioningOperation, opF ∈ ops ∧ opT ∈ ops ∧
        opF.name = e.1 ∧ opT.name = e.2 ∧ opF.index < opT.index) ∧
      (t.edges = [] → ops.map (fun o => o.name) = sortedNames t) := by
  obtain ⟨⟨hnod, hres⟩, hcycB⟩ := hv
  have hacy : ∀ n, ¬ Relation.TransGen (edgeStep t.edges) n n :=
    acyclic_of_valid ⟨⟨hnod, hres⟩, hcycB⟩
  have hpermS : (sortedNames t).Perm t.names := insertionSortNames_perm t.names
  obtain ⟨out, hout⟩ := emitLoop_ok_exists (sortedNames t).length t.names t.edges []
    (sortedNames t) (le_refl _)
    (fun x hx => hpermS.mem_iff.mp hx)
    (fun x hx => Or.inr (hpermS.mem_iff.mpr hx))
    (fun e he => (hres e he).1)
    hacy
  obtain ⟨hperm, hemit⟩ := emitLoop_ok_spec (sortedNames t).length t.edges []
    (sortedNames t) out (le_refl _) hout
  have hnodOut : out.Nodup := hperm.nodup (hpermS.symm.nodup hnod)
  have hmemOut : ∀ x : String, x ∈ t.names ↔ x ∈ out :=
    fun x => (hpermS.symm.trans hperm).mem_iff
  refine ⟨out.enum.map (fun p => ⟨p.2, OpKind.create, p.1⟩), ?_, ?_, ?_, ?_⟩
  · rw [Topology.emitPlan, hout]; rfl
  · intro k hk
    constructor
    · simp [List.get_eq_getElem, List.getElem_map, List.getElem_enum]
    · simp [List.get_eq_getElem, List.getElem_map, List.getElem_enum]
  · intro e he
    obtain ⟨a, b⟩ := e
    have hbmem : b ∈ out := (hmemOut b).mp (hres (a, b) he).2
    rcases emitOk_order out [] t.edges a b hemit hnodOut he hbmem with h | ⟨hamem, hpos⟩
    · simp at h
    · have hgi : out.get? (namePos out a) = some a := namePos_get? hamem
      have hgj : out.get? (namePos out b) = some b := namePos_get? hbmem
      refine ⟨⟨a, OpKind.create, namePos out a⟩, ⟨b, OpKind.create, namePos out b⟩,
        ?_, ?_, rfl, rfl, hpos⟩
      · rw [List.mem_map]
        refine ⟨(namePos out a, a), ?_, rfl⟩
        rw [List.mk_mem_enum_iff_getElem?]
        rwa [List.get?_eq_getElem?] at hgi
      · rw [List.mem_map]
        refine ⟨(namePos out b, b), ?_, rfl⟩
        rw [List.mk_mem_enum_iff_getElem?]
        rwa [List.get?_eq_getElem?] at hgj
  · intro hedges
    have hsame : out = sortedNames t := by
      rw [hedges] at hout
      rw [emitLoop_no_edges (sortedNames t).length [] (sortedNames t) (le_refl _)] at hout
      injection hout with h
      exact h.symm
    rw [hsame, List.map_map]
    exact List.enum_map_snd (sortedNames t)

/-- C1 witness: the spec's three-resource example (A network, B cache depending on
A, C service depending on A and B) is a valid topology, its plan is exactly A, B, C
with indices 0, 1, 2, and the general ordering theorem applies to it. -/
theorem emitPlan_orders_dependencies_witness :
    exampleTopologyABC.Valid ∧
    exampleTopologyABC.emitPlan = .ok
      [⟨"A", OpKind.create, 0⟩, ⟨"B", OpKind.create, 1⟩, ⟨"C", OpKind.create, 2⟩] ∧
    (∃ ops : List ProvisioningOperation, exampleTopologyABC.emitPlan = .ok ops ∧
      (∀ (k : Nat) (hk : k < ops.length),
        (ops.get ⟨k, hk⟩).index = k ∧ (ops.get ⟨k, hk⟩).opKind = OpKind.create) ∧
      (∀ e ∈ exampleTopologyABC.edges,
        ∃ opF opT : ProvisioningOperation, opF ∈ ops ∧ opT ∈ ops ∧
          opF.name = e.1 ∧ opT.name = e.2 ∧ opF.index < opT.index) ∧
      (exampleTopologyABC.edges = [] →
        ops.map (fun o => o.name) = sortedNames exampleTopologyABC)) := by
  refine ⟨by decide, ?_, emitPlan_orders_dependencies exampleTopologyABC (by decide)⟩
  rw [Topology.emitPlan]
  have h0 : sortedNames exampleTopologyABC = ["A", "B", "C"] := rfl
  rw [h0]
  have hf1 : (["A", "B", "C"] : List String).find?
      (ready exampleTopologyABC.edges []) = some "A" := rfl
  rw [emitLoop_cons_some (by simp) hf1]
  have he1 : (["A", "B", "C"] : List String).erase "A" = ["B", "C"] := rfl
  have ha1 : ([] : List String) ++ ["A"] = ["A"] := rfl
  rw [he1, ha1]
  have hf2 : (["B", "C"] : List String).find?
      (ready exampleTopologyABC.edges ["A"]) = some "B" := rfl
  rw [emitLoop_cons_some (by simp) hf2]
  have he2 : (["B", "C"] : List String).erase "B" = ["C"] := rfl
  have ha2 : (["A"] : List String) ++ ["B"] = ["A", "B"] := rfl
  rw [he2, ha2]
  have hf3 : (["C"] : List String).find?
      (ready exampleTopologyABC.edges ["A", "B"]) = some "C" := rfl
  rw [emitLoop_cons_some (by simp) hf3]
  have he3 : (["C"] : List String).erase "C" = [] := rfl
  rw [he3, emitLoop_nil]
  rfl

/-- C2: for a valid topology, an edge insertion that would create a cycle fails with
`CycleDetected` (the operation returns the error, so no modified topology and no
plan ever reaches a backend), and plan emission on a well-formed topology that
contains a cycle fails with `CycleDetected` (no operation list is produced). -/
theorem cycle_insertion_and_emission_rejected :
    (∀ (t : Topology) (src dst : String), t.Valid → src ∈ t.names → dst ∈ t.names →
      (∃ n, Relation.TransGen (edgeStep (t.edges ++ [(src, dst)])) n n) →
      t.addDependency src dst = .error .CycleDetected) ∧
    (∀ t : Topology, t.WellFormed →
      (∃ n, Relation.TransGen (edgeStep t.edges) n n) →
      t.emitPlan = .error .CycleDetected) := by
  constructor
  · intro t src dst hv hsrc hdst hex
    obtain ⟨n, hcyc⟩ := hex
    have hacy := acyclic_of_valid hv
    have hreach : reaches t.edges dst src = true :=
      reaches_iff.mpr (cycle_extend hacy hcyc)
    simp [Topology.addDependency, hsrc, hdst, hreach]
  · intro t hwf hex
    obtain ⟨n, hcyc⟩ := hex
    have hpermS : (sortedNames t).Perm t.names := insertionSortNames_perm t.names
    cases hloop : emitLoop t.edges [] (sortedNames t) with
    | error e =>
      have he := emitLoop_error_eq (sortedNames t).length t.edges [] (sortedNames t) e
        (le_refl _) hloop
      subst he
      rw [Topology.emitPlan, hloop]
      rfl
    | ok out =>
      exfalso
      obtain ⟨hperm, hemit⟩ := emitLoop_ok_spec (sortedNames t).length t.edges []
        (sortedNames t) out (le_refl _) hloop
      have hnodOut : out.Nodup := hperm.nodup (hpermS.symm.nodup hwf.1)
      have hcl : ∀ e ∈ t.edges, e.2 ∈ out := fun e he =>
        (hpermS.symm.trans hperm).mem_iff.mp (hwf.2 e he).2
      exact absurd (emitOk_order_trans hemit hnodOut hcl n n hcyc).2.2 (lt_irrefl _)

/-- C2 witness: on the one-edge topology A → B, inserting B → A would close a cycle
and `addDependency` rejects it with `CycleDetected`; plan emission on the two-node
cyclic topology fails with `CycleDetected`. -/
theorem cycle_insertion_and_emission_rejected_witness :
    exampleTopologyEdge.Valid ∧ "B" ∈ exampleTopologyEdge.names ∧
    "A" ∈ exampleTopologyEdge.names ∧
    exampleTopologyEdge.addDependency "B" "A" = .error .CycleDetected ∧
    exampleTopologyCycle.WellFormed ∧
    exampleTopologyCycle.emitPlan = .error .CycleDetected := by
  have hcyc1 : ∃ n, Relation.TransGen
      (edgeStep (exampleTopologyEdge.edges ++ [("B", "A")])) n n :=
    ⟨"A", Relation.TransGen.tail
      (Relation.TransGen.single
        (show ("A", "B") ∈ exampleTopologyEdge.edges ++ [("B", "A")] by decide))
      (show ("B", "A") ∈ exampleTopologyEdge.edges ++ [("B", "A")] by decide)⟩
  have hcyc2 : ∃ n, Relation.TransGen (edgeStep exampleTopologyCycle.edges) n n :=
    ⟨"A", Relation.TransGen.tail
      (Relation.TransGen.single
        (show ("A", "B") ∈ exampleTopologyCycle.edges by decide))
      (show ("B", "A") ∈ exampleTopologyCycle.edges by decide)⟩
  exact ⟨by decide, by decide, by decide,
    cycle_insertion_and_emission_rejected.1 exampleTopologyEdge "B" "A"
      (by decide) (by decide) (by decide) hcyc1,
    by decide,
    cycle_insertion_and_emission_rejected.2 exampleTopologyCycle (by decide) hcyc2⟩

/-- C6: adding a node under an already bound name fails with `DuplicateName` (the
result is only the error: no node or edge is added and no node is modified), and
adding under a fresh name succeeds, appending exactly the new node and returning
its name as the NodeRef. -/
theorem addNode_duplicate_rejected :
    (∀ (t : Topology) (name : String) (kind : Kind) (config : List (String × String)),
      name ∈ t.names → t.addNode name kind config = .error .DuplicateName) ∧
    (∀ (t : Topology) (name : String) (kind : Kind) (config : List (String × String)),
      name ∉ t.names →
      t.addNode name kind config =
        .ok ({ nodes := t.nodes ++ [⟨name, kind, config⟩], edges := t.edges }, name)) := by
  constructor
  · intro t name kind config h
    simp [Topology.addNode, h]
  · intro t name kind config h
    simp [Topology.addNode, h]

/-- C6 witness: re-adding the bound name A is rejected with `DuplicateName`, while
the fresh name Z is added and returned as a NodeRef. -/
theorem addNode_duplicate_rejected_witness :
    "A" ∈ exampleTopologyEdge.names ∧
    exampleTopologyEdge.addNode "A" Kind.cache [] = .error .DuplicateName ∧
    "Z" ∉ exampleTopologyEdge.names ∧
    exampleTopologyEdge.addNode "Z" Kind.cache [] =
      .ok ({ nodes := exampleTopologyEdge.nodes ++ [⟨"Z", Kind.cache, []⟩],
             edges := exampleTopologyEdge.edges }, "Z") :=
  ⟨by decide,
   addNode_duplicate_rejected.1 exampleTopologyEdge "A" Kind.cache [] (by decide),
   by decide,
   addNode_duplicate_rejected.2 exampleTopologyEdge "Z" Kind.cache [] (by decide)⟩

lemma findNode_eq_none_iff {t : Topology} {n : String} :
    t.findNode n = none ↔ n ∉ t.names := by
  rw [Topology.findNode, List.find?_eq_none, Topology.names]
  constructor
  · intro h hmem
    rw [List.mem_map] at hmem
    obtain ⟨r, hr, hname⟩ := hmem
    exact h r hr (by simp [hname])
  · intro h r hr hbeq
    rw [beq_iff_eq] at hbeq
    exact h (List.mem_map.mpr ⟨r, hr, hbeq⟩)

lemma assocLookup_mem {α β : Type} [DecidableEq α] :
    ∀ (l : List (α × β)) (k : α) (v : β), assocLookup l k = some v → (k, v) ∈ l := by
  intro l
  induction l with
  | nil => intro k v h; simp [assocLookup] at h
  | cons e rest ih =>
    intro k v h
    rw [assocLookup] at h
    by_cases hek : e.1 = k
    · rw [if_pos hek] at h
      injection h with h2
      have he : e = (k, v) := by
        obtain ⟨a, b⟩ := e
        simp only at hek h2
        rw [hek, h2]
      exact List.mem_cons.mpr (Or.inl he.symm)
    · rw [if_neg hek] at h
      exact List.mem_cons_of_mem _ (ih k v h)

lemma resolveWithCache_of_compute_error {t : Topology} {st : ResolverCache}
    {name : String} {p : Protocol} {err : ProvisionError}
    (hcc : CacheConsistent t st) (hcompute : resolveCompute t name p = .error err) :
    resolveWithCache t st name p = .error err := by
  have hlook : assocLookup st (name, p) = none := by
    cases hl : assocLookup st (name, p) with
    | none => rfl
    | some d =>
      have h2 := hcc _ (assocLookup_mem st (name, p) d hl)
      rw [hcompute] at h2
      exact absurd h2 (by simp)
  rw [resolveWithCache, hlook, hcompute]

/-- C7: with a consistent cache, `resolve` fails with `UnknownNode` when the
producer name is absent from the topology, and with `UnsupportedProtocol` when the
producer exists but its kind does not support the requested protocol. -/
theorem resolve_unknown_or_unsupported :
    (∀ (t : Topology) (st : ResolverCache) (name : String) (p : Protocol),
      CacheConsistent t st → name ∉ t.names →
      resolveWithCache t st name p = .error .UnknownNode) ∧
    (∀ (t : Topology) (st : ResolverCache) (name : String) (p : Protocol)
      (node : ResourceNode),
      CacheConsistent t st → t.findNode name = some node →
      supports node.kind p = false →
      resolveWithCache t st name p = .error .UnsupportedProtocol) := by
  constructor
  · intro t st name p hcc habs
    refine resolveWithCache_of_compute_error hcc ?_
    rw [resolveCompute, findNode_eq_none_iff.mpr habs]
  · intro t st name p node hcc hfind hsup
    refine resolveWithCache_of_compute_error hcc ?_
    rw [resolveCompute, hfind]
    simp [hsup]

/-- C7 witness: resolving an absent producer fails with `UnknownNode`, and
requesting a cache endpoint from the network resource A fails with
`UnsupportedProtocol`. -/
theorem resolve_unknown_or_unsupported_witness :
    CacheConsistent exampleTopologyABC [] ∧
    "missing" ∉ exampleTopologyABC.names ∧
    resolveWithCache exampleTopologyABC [] "missing" Protocol.http =
      .error .UnknownNode ∧
    exampleTopologyABC.findNode "A" = some ⟨"A", Kind.network, []⟩ ∧
    supports Kind.network Protocol.cache = false ∧
    resolveWithCache exampleTopologyABC [] "A" Protocol.cache =
      .error .UnsupportedProtocol := by
  have hcc : CacheConsistent exampleTopologyABC [] := by
    intro entry h
    exact absurd h (List.not_mem_nil entry)
  exact ⟨hcc, by decide,
    resolve_unknown_or_unsupported.1 exampleTopologyABC [] "missing" Protocol.http
      hcc (by decide),
    by decide, by decide,
    resolve_unknown_or_unsupported.2 exampleTopologyABC [] "A" Protocol.cache
      ⟨"A", Kind.network, []⟩ hcc (by decide) (by decide)⟩

/-- C5: with a consistent cache, a successful `resolve` returns exactly the pure
(deterministic) resolution result, leaves the cache consistent, stores the result
under the (producerName, protocol) pair, and a second call with the same arguments
returns the same descriptor with the cache unchanged (idempotence). -/
theorem resolve_deterministic_idempotent :
    ∀ (t : Topology) (st : ResolverCache) (name : String) (p : Protocol)
      (d : EndpointDescriptor) (st2 : ResolverCache),
      CacheConsistent t st →
      resolveWithCache t st name p = .ok (d, st2) →
      resolveCompute t name p = .ok d ∧
      CacheConsistent t st2 ∧
      assocLookup st2 (name, p) = some d ∧
      resolveWithCache t st2 name p = .ok (d, st2) := by
  intro t st name p d st2 hcc hres
  cases hl : assocLookup st (name, p) with
  | some d0 =>
    rw [resolveWithCache, hl] at hres
    injection hres with h
    have hd : d0 = d := congrArg Prod.fst h
    have hst : st = st2 := congrArg Prod.snd h
    subst hd
    subst hst
    have hcomp := hcc _ (assocLookup_mem st (name, p) d0 hl)
    exact ⟨hcomp, hcc, hl, by rw [resolveWithCache, hl]⟩
  | none =>
    rw [resolveWithCache, hl] at hres
    cases hcomp : resolveCompute t name p with
    | error e => rw [hcomp] at hres; exact absurd hres (by simp)
    | ok d1 =>
      rw [hcomp] at hres
      injection hres with h
      have hd : d1 = d := congrArg Prod.fst h
      have hst : ((name, p), d1) :: st = st2 := congrArg Prod.snd h
      subst hd
      subst hst
      have hself : assocLookup (((name, p), d1) :: st) (name, p) = some d1 := by
        rw [assocLookup, if_pos rfl]
      refine ⟨rfl, ?_, hself, by rw [resolveWithCache, hself]⟩
      intro entry hmem
      rcases List.mem_cons.mp hmem with heq | hmem2
      · rw [heq]
        exact hcomp
      · exact hcc entry hmem2

/-- C5 witness: resolving the cache endpoint of the redis node twice returns the
same descriptor, and the result is cached under ("redis", cache). -/
theorem resolve_deterministic_idempotent_witness :
    CacheConsistent exampleCacheTopology [] ∧
    (resolveCompute exampleCacheTopology "redis" Protocol.cache =
        .ok exampleRedisDescriptor ∧
      CacheConsistent exampleCacheTopology exampleResolverCache ∧
      assocLookup exampleResolverCache ("redis", Protocol.cache) =
        some exampleRedisDescriptor ∧
      resolveWithCache exampleCacheTopology exampleResolverCache "redis"
        Protocol.cache = .ok (exampleRedisDescriptor, exampleResolverCache)) := by
  have hcc : CacheConsistent exampleCacheTopology [] := by
    intro entry h
    exact absurd h (List.not_mem_nil entry)
  exact ⟨hcc,
    resolve_deterministic_idempotent exampleCacheTopology [] "redis" Protocol.cache
      exampleRedisDescriptor exampleResolverCache hcc rfl⟩

lemma stepsOverlap_iff {s₁ s₂ : ScalingStep} :
    stepsOverlap s₁ s₂ = true ↔
      ∃ x : Int, stepMatches s₁ x = true ∧ stepMatches s₂ x = true := by
  obtain ⟨l₁, u₁, c₁⟩ := s₁
  obtain ⟨l₂, u₂, c₂⟩ := s₂
  rcases l₁ with _ | a₁ <;> rcases u₁ with _ | b₁ <;>
    rcases l₂ with _ | a₂ <;> rcases u₂ with _ | b₂ <;>
    simp [stepsOverlap, stepMatches, optMax, optMin, Option.all]
  all_goals try exact ⟨b₂, le_refl b₂⟩
  all_goals try exact ⟨a₂, le_refl a₂⟩
  all_goals try exact ⟨b₁, le_refl b₁⟩
  all_goals try exact ⟨a₁, le_refl a₁⟩
  all_goals try exact ⟨min b₁ b₂, by omega⟩
  all_goals try exact ⟨max a₁ a₂, by omega⟩
  all_goals constructor
  all_goals intro h
  all_goals try (obtain ⟨x, hx⟩ := h; omega)
  all_goals
    first
    | exact ⟨a₁, by omega⟩
    | exact ⟨a₂, by omega⟩
    | exact ⟨max a₁ a₂, by omega⟩

lemma anyOverlap_eq_false_iff :
    ∀ steps : List ScalingStep,
      anyOverlap steps = false ↔
        steps.Pairwise (fun a b => stepsOverlap a b = false) := by
  intro steps
  induction steps with
  | nil => simp [anyOverlap]
  | cons s rest ih =>
    rw [anyOverlap, Bool.or_eq_false_iff, List.pairwise_cons, ih, List.any_eq_false]
    constructor
    · rintro ⟨h1, h2⟩
      exact ⟨fun b hb => Bool.not_eq_true _ ▸ (by simpa using h1 b hb), h2⟩
    · rintro ⟨h1, h2⟩
      exact ⟨fun b hb => by simpa using h1 b hb, h2⟩

/-- C3: the autoscaler overlap validation fails with `InvalidConfig` whenever two
distinct entries of the step table have overlapping bound ranges (some metric value
matches both), passes any table with no such pair, rejects the spec's example table
`[{upper 10, -1}, {lower 5, +1}]`, and accepts a disjoint table. -/
theorem validateSteps_overlap :
    (∀ steps : List ScalingStep,
      (∃ i j : Fin steps.length, i < j ∧ ∃ x : Int,
        stepMatches (steps.get i) x = true ∧ stepMatches (steps.get j) x = true) →
      validateSteps steps = .error .InvalidConfig) ∧
    (∀ steps : List ScalingStep,
      (∀ i j : Fin steps.length, i < j → ∀ x : Int,
        ¬(stepMatches (steps.get i) x = true ∧ stepMatches (steps.get j) x = true)) →
      validateSteps steps = .ok ()) ∧
    validateSteps exampleOverlapSteps = .error .InvalidConfig ∧
    validateSteps exampleDisjointSteps = .ok () := by
  refine ⟨?_, ?_, by rfl, by rfl⟩
  · intro steps hov
    cases hao : anyOverlap steps with
    | true => simp [validateSteps, hao]
    | false =>
      exfalso
      obtain ⟨i, j, hij, x, h1, h2⟩ := hov
      have hpw := (anyOverlap_eq_false_iff steps).mp hao
      have hfalse := List.pairwise_iff_get.mp hpw i j hij
      have htrue : stepsOverlap (steps.get i) (steps.get j) = true :=
        stepsOverlap_iff.mpr ⟨x, h1, h2⟩
      rw [hfalse] at htrue
      exact Bool.false_ne_true htrue
  · intro steps hno
    have hao : anyOverlap steps = false := by
      rw [anyOverlap_eq_false_iff, List.pairwise_iff_get]
      intro i j hij
      cases hov : stepsOverlap (steps.get i) (steps.get j) with
      | false => rfl
      | true =>
        obtain ⟨x, h1, h2⟩ := stepsOverlap_iff.mp hov
        exact absurd ⟨h1, h2⟩ (hno i j hij x)
    simp [validateSteps, hao]

/-- C3 witness: in the spec's example table the value 7 lies in both entries'
ranges, and validation rejects the table with `InvalidConfig`. -/
theorem validateSteps_overlap_witness :
    (∃ i j : Fin exampleOverlapSteps.length, i < j ∧ ∃ x : Int,
      stepMatches (exampleOverlapSteps.get i) x = true ∧
      stepMatches (exampleOverlapSteps.get j) x = true) ∧
    validateSteps exampleOverlapSteps = .error .InvalidConfig := by
  have hex : ∃ i j : Fin exampleOverlapSteps.length, i < j ∧ ∃ x : Int,
      stepMatches (exampleOverlapSteps.get i) x = true ∧
      stepMatches (exampleOverlapSteps.get j) x = true :=
    ⟨⟨0, by decide⟩, ⟨1, by decide⟩, by decide, 7, by decide, by decide⟩
  exact ⟨hex, validateSteps_overlap.1 exampleOverlapSteps hex⟩

lemma registerServiceName_ok {registered : List String} {n : String}
    {st2 : List String} (h : registerServiceName registered n = .ok st2) :
    st2 = n :: registered ∧ ∀ m ∈ registered, lowerKey m ≠ lowerKey n := by
  rw [registerServiceName] at h
  by_cases hany : registered.any (fun m => lowerKey m == lowerKey n) = true
  · rw [if_pos hany] at h
    exact absurd h (by simp)
  · rw [if_neg hany] at h
    injection h with h2
    refine ⟨h2.symm, ?_⟩
    intro m hm heq
    apply hany
    rw [List.any_eq_true]
    exact ⟨m, hm, by simp [heq]⟩

lemma applyRegistrations_caseless :
    ∀ ops registered : List String, CaselessUnique registered →
      CaselessUnique (applyRegistrations registered ops) := by
  intro ops
  induction ops with
  | nil => intro registered h; exact h
  | cons op rest ih =>
    intro registered hcu
    have hstep : applyRegistrations registered (op :: rest) =
        applyRegistrations
          (match registerServiceName registered op with
            | .ok st2 => st2
            | .error _ => registered) rest := by
      rw [applyRegistrations, applyRegistrations, List.foldl_cons]
    rw [hstep]
    cases hreg : registerServiceName registered op with
    | error e => exact ih registered hcu
    | ok st2 =>
      obtain ⟨hst2, hfresh⟩ := registerServiceName_ok hreg
      subst hst2
      exact ih _ (List.Pairwise.cons (fun b hb => (hfresh b hb).symm) hcu)

/-- C8: a successful namespace registration adds exactly one DNS-style name (the
registered name, prepended); every sequence of registration operations preserves
case-insensitive uniqueness of the registered names; and the stack's five
per-service registrations all succeed, yielding five case-insensitively distinct
names. -/
theorem namespace_names_caseless_unique :
    (∀ (registered : List String) (n : String) (st2 : List String),
      registerServiceName registered n = .ok st2 →
      st2 = n :: registered ∧ st2.length = registered.length + 1) ∧
    (∀ ops registered : List String, CaselessUnique registered →
      CaselessUnique (applyRegistrations registered ops)) ∧
    applyRegistrations [] stackDnsNames =
      ["recommender", "order", "cart", "catalog", "image"] ∧
    CaselessUnique (applyRegistrations [] stackDnsNames) ∧
    (applyRegistrations [] stackDnsNames).length = stackDnsNames.length := by
  refine ⟨?_, applyRegistrations_caseless, by rfl, by decide, by rfl⟩
  intro registered n st2 h
  obtain ⟨hst2, _⟩ := registerServiceName_ok h
  exact ⟨hst2, by rw [hst2, List.length_cons]⟩

/-- C8 witness: registering "catalog" next to "image" succeeds and adds exactly
that one name, and the stack's five registrations stay case-insensitively
unique. -/
theorem namespace_names_caseless_unique_witness :
    (["catalog", "image"] : List String) = "catalog" :: ["image"] ∧
    (["catalog", "image"] : List String).length = (["image"] : List String).length + 1 ∧
    CaselessUnique (applyRegistrations [] stackDnsNames) := by
  have h1 := namespace_names_caseless_unique.1 ["image"] "catalog" ["catalog", "image"]
    (by rfl)
  exact ⟨h1.1, h1.2,
    namespace_names_caseless_unique.2.1 stackDnsNames [] (by decide)⟩

lemma addNode_ok_shape {t : Topology} {name : String} {kind : Kind}
    {config : List (String × String)} {t2 : Topology} {ref : String}
    (h : t.addNode name kind config = .ok (t2, ref)) :
    name ∉ t.names ∧ t2.nodes = t.nodes ++ [⟨name, kind, config⟩] ∧
      t2.edges = t.edges ∧ ref = name := by
  rw [Topology.addNode] at h
  by_cases hmem : name ∈ t.names
  · rw [if_pos hmem] at h
    exact absurd h (by simp)
  · rw [if_neg hmem] at h
    injection h with h2
    injection h2 with h3 h4
    subst h3
    subst h4
    exact ⟨hmem, rfl, rfl, rfl⟩

lemma addDependency_nodes {t : Topology} {src dst : String} {t2 : Topology}
    (h : t.addDependency src dst = .ok t2) : t2.nodes = t.nodes := by
  rw [Topology.addDependency] at h
  by_cases hc : src ∈ t.names ∧ dst ∈ t.names
  · rw [if_pos hc] at h
    by_cases hr : reaches t.edges dst src = true
    · rw [if_pos hr] at h
      exact absurd h (by simp)
    · rw [if_neg hr] at h
      injection h with h2
      rw [← h2]
  · rw [if_neg hc] at h
    exact absurd h (by simp)

lemma materializeService_some {t : Topology} {st : ResolverCache} {cfg : ServiceSpec}
    {cacheName : String} (hdep : cfg.cacheDep = some cacheName) :
    materializeService t st cfg =
      (resolveWithCache t st cacheName .cache).bind (fun pr =>
        (t.addNode cfg.name .service
            (("REDIS_ENDPOINT", pr.1.address) :: cfg.baseEnvironment)).bind (fun pr2 =>
          (pr2.1.addDependency cacheName pr2.2).map (fun t3 => (t3, pr.2)))) := by
  rw [materializeService, hdep]

/-- C4: materializing a service whose configuration declares a cache dependency
obtains the cache's EndpointDescriptor through the Endpoint Resolver and stores its
address in the materialized service's configuration payload under the fixed key
"REDIS_ENDPOINT" before returning; the resolver's cache address is exactly the
stack's "redis://" ++ address ++ ":" ++ port ++ "/0" connection string, which is
the value the cart and frontend services carry under that key in the source. -/
theorem materialize_injects_cache_endpoint :
    (∀ (t : Topology) (st : ResolverCache) (cfg : ServiceSpec) (cacheName : String)
      (t2 : Topology) (st2 : ResolverCache),
      cfg.cacheDep = some cacheName →
      materializeService t st cfg = .ok (t2, st2) →
      ∃ d : EndpointDescriptor,
        resolveWithCache t st cacheName Protocol.cache = .ok (d, st2) ∧
        ∃ node : ResourceNode, t2.findNode cfg.name = some node ∧
          assocLookup node.config "REDIS_ENDPOINT" = some d.address) ∧
    (∀ (nd : ResourceNode) (addr port : String), nd.kind = Kind.cache →
      assocLookup nd.config "address" = some addr →
      assocLookup nd.config "port" = some port →
      addressFor nd Protocol.cache = redisEndpointValue addr port) ∧
    (∀ addr port : String,
      assocLookup (cartServiceEnvironment addr port) "REDIS_ENDPOINT" =
        some (redisEndpointValue addr port)) ∧
    (∀ addr port : String,
      assocLookup (frontendServiceEnvironment addr port) "REDIS_ENDPOINT" =
        some (redisEndpointValue addr port)) := by
  refine ⟨?_, ?_, ?_, ?_⟩
  · intro t st cfg cacheName t2 st2 hdep hmat
    rw [materializeService_some hdep] at hmat
    cases hres : resolveWithCache t st cacheName Protocol.cache with
    | error e =>
      rw [hres] at hmat
      exact absurd hmat (by simp [Except.bind])
    | ok pr =>
      obtain ⟨d, st3⟩ := pr
      rw [hres] at hmat
      simp only [Except.bind] at hmat
      cases haddn : t.addNode cfg.name .service
          (("REDIS_ENDPOINT", d.address) :: cfg.baseEnvironment) with
      | error e =>
        rw [haddn] at hmat
        exact absurd hmat (by simp)
      | ok pr2 =>
        obtain ⟨t3, ref⟩ := pr2
        rw [haddn] at hmat
        simp only at hmat
        obtain ⟨hnmem, hnodes, _, href⟩ := addNode_ok_shape haddn
        subst href
        cases hdep2 : t3.addDependency cacheName cfg.name with
        | error e =>
          rw [hdep2] at hmat
          exact absurd hmat (by simp [Except.map])
        | ok t4 =>
          rw [hdep2] at hmat
          simp only [Except.map] at hmat
          injection hmat with h2
          injection h2 with h3 h4
          subst h3
          subst h4
          refine ⟨d, rfl,
            ⟨cfg.name, Kind.service,
              ("REDIS_ENDPOINT", d.address) :: cfg.baseEnvironment⟩, ?_, ?_⟩
          · rw [Topology.findNode, addDependency_nodes hdep2, hnodes,
              List.find?_append]
            have hnone : t.nodes.find? (fun r => r.name == cfg.name) = none := by
              rw [List.find?_eq_none]
              intro r hr hbeq
              rw [beq_iff_eq] at hbeq
              exact hnmem (List.mem_map.mpr ⟨r, hr, hbeq⟩)
            rw [hnone]
            simp
          · rw [assocLookup, if_pos rfl]
  · intro nd addr port _ haddr hport
    rw [addressFor, haddr, hport]
    rfl
  · intro addr port
    rw [cartServiceEnvironment, assocLookup, if_pos rfl]
  · intro addr port
    rw [frontendServiceEnvironment, assocLookup, if_pos rfl]

/-- C4 witness: materializing the cart-like service against the example cache node
succeeds, resolves the redis descriptor, and the materialized service's payload
carries REDIS_ENDPOINT = redis://redis.internal:6379/0. -/
theorem materialize_injects_cache_endpoint_witness :
    exampleCartSpec.cacheDep = some "redis" ∧
    materializeService exampleCacheTopology [] exampleCartSpec =
      .ok (exampleMaterializedTopology, exampleResolverCache) ∧
    (∃ d : EndpointDescriptor,
      resolveWithCache exampleCacheTopology [] "redis" Protocol.cache =
        .ok (d, exampleResolverCache) ∧
      ∃ node : ResourceNode,
        exampleMaterializedTopology.findNode exampleCartSpec.name = some node ∧
        assocLookup node.config "REDIS_ENDPOINT" = some d.address) :=
  ⟨rfl, by rfl,
    materialize_injects_cache_endpoint.1 exampleCacheTopology [] exampleCartSpec
      "redis" exampleMaterializedTopology exampleResolverCache rfl (by rfl)⟩

/-- C9: all six ApplicationLoadBalancedFargateService instances of the stack carry
the identical observability sidecar — one extra container named "xray-daemon" from
the image "amazon/aws-xray-daemon" with a UDP port mapping on container port 2000 —
and each grants its task role the AWSXRayDaemonWriteAccess managed policy. -/
theorem xray_sidecar_uniform :
    ∀ addr port : String,
      (stackServices addr port).length = 6 ∧
      ∀ s ∈ stackServices addr port,
        s.sidecars = [xrayDaemonContainer] ∧
        s.taskRoleManagedPolicies = ["AWSXRayDaemonWriteAccess"] ∧
        xrayDaemonContainer.name = "xray-daemon" ∧
        xrayDaemonContainer.image = "amazon/aws-xray-daemon" ∧
        xrayDaemonContainer.portMappings = [⟨2000, NetProtocol.udp⟩] := by
  intro addr port
  refine ⟨rfl, ?_⟩
  intro s hs
  simp only [stackServices, List.mem_cons, List.not_mem_nil, or_false] at hs
  rcases hs with rfl | rfl | rfl | rfl | rfl | rfl
  all_goals exact ⟨rfl, rfl, rfl, rfl, rfl⟩

/-- C9 witness: the cart service instance carries exactly the X-Ray sidecar and the
X-Ray managed policy. -/
theorem xray_sidecar_uniform_witness :
    (cartServiceDef "addr" "port").sidecars = [xrayDaemonContainer] ∧
    (cartServiceDef "addr" "port").taskRoleManagedPolicies =
      ["AWSXRayDaemonWriteAccess"] ∧
    xrayDaemonContainer.name = "xray-daemon" ∧
    xrayDaemonContainer.image = "amazon/aws-xray-daemon" ∧
    xrayDaemonContainer.portMappings = [⟨2000, NetProtocol.udp⟩] :=
  (xray_sidecar_uniform "addr" "port").2 (cartServiceDef "addr" "port") (by decide)

/-- C10: over every container service the stack declares — the six load-balanced
Fargate services and the load generator Ec2Service — exactly the cart and frontend
services are connected to the cache connection, and a service is connected to the
cache precisely when its environment payload carries the REDIS_ENDPOINT key; the
cache connection's default port is TCP 6379, and no other service (in particular
not the load generator) is connected to the cache. -/
theorem cache_access_matches_env :
    ∀ addr port frontendDns : String,
      (allStackServices addr port frontendDns).length = 7 ∧
      (allStackServices addr port frontendDns).filter (fun s => s.connectsToCache) =
        [(cartServiceDef addr port).toStackService,
         (frontendServiceDef addr port).toStackService] ∧
      (∀ s ∈ allStackServices addr port frontendDns,
        s.connectsToCache = true ↔
          (assocLookup s.environment "REDIS_ENDPOINT").isSome = true) ∧
      cacheConnectionDefaultPort = (NetProtocol.tcp, 6379) := by
  intro addr port frontendDns
  refine ⟨rfl, rfl, ?_, rfl⟩
  intro s hs
  have hall : allStackServices addr port frontendDns =
      [imageServiceDef.toStackService, catalogServiceDef.toStackService,
       (cartServiceDef addr port).toStackService, orderServiceDef.toStackService,
       recommenderServiceDef.toStackService,
       (frontendServiceDef addr port).toStackService,
       (loadGeneratorServiceDef frontendDns).toStackService] := rfl
  rw [hall] at hs
  simp only [List.mem_cons, List.not_mem_nil, or_false] at hs
  rcases hs with rfl | rfl | rfl | rfl | rfl | rfl | rfl
  all_goals constructor <;> intro h <;> first | rfl | exact Bool.noConfusion h

/-- C10 witness: the load generator service is not connected to the cache and has no
REDIS_ENDPOINT key, while the cart service is connected and carries the key. -/
theorem cache_access_matches_env_witness :
    ((loadGeneratorServiceDef "dns").toStackService.connectsToCache = true ↔
      (assocLookup (loadGeneratorServiceDef "dns").toStackService.environment
        "REDIS_ENDPOINT").isSome = true) ∧
    ((cartServiceDef "addr" "port").toStackService.connectsToCache = true ↔
      (assocLookup (cartServiceDef "addr" "port").toStackService.environment
        "REDIS_ENDPOINT").isSome = true) :=
  ⟨(cache_access_matches_env "addr" "port" "dns").2.2.1
      (loadGeneratorServiceDef "dns").toStackService (by decide),
   (cache_access_matches_env "addr" "port" "dns").2.2.1
      (cartServiceDef "addr" "port").toStackService (by decide)⟩

end EcsInsights
